import Mathlib

/-!
Verification of the cold-email generator (src/main.py).

Strings are modelled as lists of characters.  Each regular-expression
operation of `parse_email` is translated into an explicit, executable
scanner with the exact matching semantics of the Python `re` module
(case-insensitive literals, greedy quantifiers, `.` not matching the
newline unless DOTALL, `re.sub` replacing every non-overlapping match,
scanning left to right).  The HTTP endpoint `generate_emails` is
modelled with the external spreadsheet parser and the text-generation
service as oracle parameters; the result records the error path taken
and the exact sequence of generation calls issued.
-/

namespace ColdEmail

/-- Characters treated as whitespace by Python's `str.strip` and by the
regex class matched by a backslash-s pattern (ASCII whitespace, the
C1 control separators, and the Unicode space separators). -/
def spaceChars : List Char :=
  [' ', '\t', '\n', '\r', '\x0b', '\x0c',
   '\x1c', '\x1d', '\x1e', '\x1f', '\x85', '\xa0',
   '\u1680', '\u2000', '\u2001', '\u2002', '\u2003', '\u2004', '\u2005',
   '\u2006', '\u2007', '\u2008', '\u2009', '\u200a', '\u2028', '\u2029',
   '\u202f', '\u205f', '\u3000']

/-- Python whitespace test. -/
def isSpace (c : Char) : Bool := spaceChars.contains c

/-- Python `str.strip`: remove leading and trailing whitespace. -/
def strip (l : List Char) : List Char :=
  ((l.dropWhile isSpace).reverse.dropWhile isSpace).reverse

/-- The character is not a newline (what `.` matches without DOTALL). -/
def notNl (c : Char) : Bool := decide (c ≠ '\n')

/-- The character is a newline. -/
def isNl (c : Char) : Bool := decide (c = '\n')

/-- Case-insensitive literal match at the head of a list: the first
`pat.length` characters, lowercased, spell `pat`. -/
def ciStarts (pat l : List Char) : Bool :=
  decide ((l.take pat.length).map Char.toLower = pat)

/-- The literal of the subject-search pattern. -/
def subjectLit : List Char := ['s', 'u', 'b', 'j', 'e', 'c', 't']

/-- Attempt of the search-pattern `subject`-whitespace-colon-whitespace-text
(case-insensitive) at the head of `l`; returns the captured group:
the greedy run of non-newline characters, with greedy backtracking of
the whitespace run after the colon when the string ends in whitespace. -/
def matchSubjectAt (l : List Char) : Option (List Char) :=
  if ciStarts subjectLit l then
    match (l.drop 7).dropWhile isSpace with
    | c0 :: rest =>
      if c0 = ':' then
        match rest.dropWhile isSpace with
        | c :: cs => some ((c :: cs).takeWhile notNl)
        | [] =>
          match (rest.takeWhile isSpace).reverse.dropWhile isNl with
          | c :: _ => some [c]
          | [] => none
      else none
    | [] => none
  else none

/-- `re.search` of the subject pattern: first position, scanning left to
right, where the pattern matches; returns the captured group. -/
def searchSubject : List Char → Option (List Char)
  | [] => none
  | c :: cs =>
    match matchSubjectAt (c :: cs) with
    | some g => some g
    | none => searchSubject cs

/-- Attempt of the removal pattern `subject`-whitespace-colon-text-optional
newline at the head of `l`; returns the length of the (maximal) match. -/
def subjectRemMatchLen (l : List Char) : Option Nat :=
  if ciStarts subjectLit l then
    match (l.drop 7).dropWhile isSpace with
    | c0 :: rest =>
      if c0 = ':' then
        if (rest.takeWhile notNl).length = 0 then none
        else
          match rest.drop (rest.takeWhile notNl).length with
          | c1 :: _ =>
            if c1 = '\n' then
              some (7 + ((l.drop 7).takeWhile isSpace).length + 1 + (rest.takeWhile notNl).length + 1)
            else
              some (7 + ((l.drop 7).takeWhile isSpace).length + 1 + (rest.takeWhile notNl).length)
          | [] =>
            some (7 + ((l.drop 7).takeWhile isSpace).length + 1 + (rest.takeWhile notNl).length)
      else none
    | [] => none
  else none

/-- Scanner of the subject-line removal: at each position try the
removal pattern; on a match skip the matched segment, otherwise keep
the character and move on.  The fuel argument (instantiated with the
length of the list, which bounds the number of steps) makes the
recursion structural. -/
def reSubAux : Nat → List Char → List Char
  | _, [] => []
  | 0, l => l
  | fuel + 1, c :: cs =>
    match subjectRemMatchLen (c :: cs) with
    | some n => reSubAux fuel (cs.drop (n - 1))
    | none => c :: reSubAux fuel cs

/-- `re.sub` of the subject-line pattern with the empty replacement:
every non-overlapping match, scanning left to right, is removed. -/
def reSubSubject (l : List Char) : List Char := reSubAux l.length l

/-- The literal of the body-label pattern. -/
def bodyLit : List Char := ['b', 'o', 'd', 'y']

/-- `re.sub` of the anchored pattern `body`-whitespace-colon-whitespace
with the empty replacement: since the pattern is anchored at the start
of the string, at most one removal happens, at the very start. -/
def stripBodyLabel (l : List Char) : List Char :=
  if ciStarts bodyLit l then
    match (l.drop 4).dropWhile isSpace with
    | c0 :: rest => if c0 = ':' then rest.dropWhile isSpace else l
    | [] => l
  else l

/-- The signature keywords of the signature-stripping pattern. -/
def sigKeywords : List (List Char) :=
  [['b', 'e', 's', 't'],
   ['t', 'h', 'a', 'n', 'k', 's'],
   ['r', 'e', 'g', 'a', 'r', 'd', 's'],
   ['s', 'i', 'n', 'c', 'e', 'r', 'e', 'l', 'y'],
   ['c', 'h', 'e', 'e', 'r', 's']]

/-- The character class of the signature pattern after the keyword:
whitespace or a comma, at the head of `l`. -/
def sigAfterOk (l : List Char) : Bool :=
  match l with
  | c :: _ => isSpace c || decide (c = ',')
  | [] => false

/-- Attempt of the signature pattern (newline, keyword, whitespace or
comma, anything to the end under DOTALL) at the head of `l`. -/
def sigMatchAt (l : List Char) : Bool :=
  match l with
  | c :: rest =>
    decide (c = '\n') &&
      sigKeywords.any (fun kw => ciStarts kw rest && sigAfterOk (rest.drop kw.length))
  | [] => false

/-- `re.sub` of the signature pattern with the empty replacement: the
match extends to the end of the string, so the first matching position
truncates the string there. -/
def stripSignature : List Char → List Char
  | [] => []
  | c :: cs => if sigMatchAt (c :: cs) then [] else c :: stripSignature cs

/-- `parse_email` of src/main.py: extract the subject via the search
pattern, remove every subject line, strip a leading body label, strip a
trailing signature block, trimming after each substitution. -/
def parse_email (text : List Char) : List Char × List Char :=
  match searchSubject text with
  | some g =>
    (strip g, strip (stripSignature (strip (stripBodyLabel (strip (reSubSubject text))))))
  | none =>
    ([], strip (stripSignature (strip (stripBodyLabel text))))

/-- An in-memory table: named columns and rows of cell texts (the
per-cell text representation that the pipeline works with). -/
structure Table where
  cols : List (List Char)
  rows : List (List (List Char))

deriving DecidableEq

/-- The pandas `DataFrame.empty` test: some axis has length zero. -/
def Table.isEmpty (t : Table) : Bool := t.rows.isEmpty || t.cols.isEmpty

/-- One row after a pandas column assignment that overwrites an existing
column: the cell under every column named `name` is replaced by `v`. -/
def setCell (cols : List (List Char)) (name : List Char) (v : List Char)
    (row : List (List Char)) : List (List Char) :=
  (cols.zip row).map (fun p => if p.1 = name then v else p.2)

/-- Pandas column assignment: overwrite the column in place when the
name exists, otherwise append a new column at the end. -/
def Table.setCol (t : Table) (name : List Char) (vals : List (List Char)) : Table :=
  if name ∈ t.cols then
    { cols := t.cols, rows := List.zipWith (fun row v => setCell t.cols name v row) t.rows vals }
  else
    { cols := t.cols ++ [name], rows := List.zipWith (fun row v => row ++ [v]) t.rows vals }

/-- One row after dropping every column named `name`. -/
def dropRow (cols : List (List Char)) (name : List Char)
    (row : List (List Char)) : List (List Char) :=
  ((cols.zip row).filter (fun p => decide (p.1 ≠ name))).map (fun p => p.2)

/-- Pandas `DataFrame.drop(columns=[name])`. -/
def Table.dropCol (t : Table) (name : List Char) : Table :=
  { cols := t.cols.filter (fun c => decide (c ≠ name)),
    rows := t.rows.map (dropRow t.cols name) }

/-- The fixed delimiter of the combined profile. -/
def sepBar : List Char := [' ', '|', ' ']

/-- The combined profile of one row: every cell text joined with the
fixed delimiter, in column order. -/
def combineRow (row : List (List Char)) : List Char := List.intercalate sepBar row

/-- Sequential generation over the profiles, as the per-row `apply` of
the endpoint performs it: returns the profiles actually passed to the
generation oracle, in call order, and either the first error or the
list of trimmed completions.  The first failing call aborts the scan;
later profiles are never attempted. -/
def runGen (gen : List Char → List Char → Except (List Char) (List Char))
    (prompt : List Char) :
    List (List Char) → List (List Char) × Except (List Char) (List (List Char))
  | [] => ([], Except.ok [])
  | p :: ps =>
    match gen p prompt with
    | Except.error e => ([p], Except.error e)
    | Except.ok c =>
      let r := runGen gen prompt ps
      (p :: r.1,
       match r.2 with
       | Except.error e => Except.error e
       | Except.ok cs => Except.ok (strip c :: cs))

deriving instance DecidableEq for Except

/-- Outcome of one request to the `/generate/` endpoint: the HTTP
result (error status and detail, or the output table whose spreadsheet
encoding is streamed back), whether spreadsheet parsing was attempted,
and the profiles passed to the generation service, in call order. -/
structure RunResult where
  result : Except (Nat × List Char) Table
  parseTried : Bool
  genCalls : List (List Char)

deriving DecidableEq

/-- Detail of the unsupported-extension error. -/
def msgOnlyExcel : List Char := "Only Excel files (.xlsx, .xls) are supported".toList

/-- Detail of the empty-table error. -/
def msgEmpty : List Char := "Uploaded Excel file is empty".toList

/-- Detail prefix of the catch-all handler. -/
def serverErrPre : List Char := "Server error: ".toList

/-- Detail prefix of a failed generation call. -/
def openaiErrPre : List Char := "OpenAI error: ".toList

/-- Name of the transient combined-profile column. -/
def combinedName : List Char := "combined_profile".toList

/-- Name of the subject output column. -/
def subjectName : List Char := "subject".toList

/-- Name of the email output column. -/
def emailName : List Char := "email".toList

/-- The first accepted spreadsheet filename ending. -/
def xlsxExt : List Char := ".xlsx".toList

/-- The second accepted spreadsheet filename ending. -/
def xlsExt : List Char := ".xls".toList

/-- The `/generate/` endpoint of src/main.py.  `parseXlsx` stands for
the spreadsheet decoding (`pd.read_excel`) of the uploaded bytes
(of abstract type `β`), returning a table or the message of the raised
exception; `gen` stands for the external chat-completion call on
(profile, prompt), returning the completion text or the message of the
raised exception.  Validation errors raise client errors (status 400);
a generation failure is re-raised as status 500 with the prefixed
message; any other exception is caught by the catch-all handler and
surfaced as status 500 with the server-error prefix. -/
def generate_emails {β : Type} (parseXlsx : β → Except (List Char) Table)
    (gen : List Char → List Char → Except (List Char) (List Char))
    (filename : List Char) (contents : β) (prompt : List Char) : RunResult :=
  if xlsxExt.isSuffixOf filename || xlsExt.isSuffixOf filename then
    match parseXlsx contents with
    | Except.error m => ⟨Except.error (500, serverErrPre ++ m), true, []⟩
    | Except.ok df =>
      if df.isEmpty then ⟨Except.error (400, msgEmpty), true, []⟩
      else
        let profiles := df.rows.map combineRow
        let df1 := df.setCol combinedName profiles
        let run := runGen gen prompt profiles
        match run.2 with
        | Except.error e => ⟨Except.error (500, openaiErrPre ++ e), true, run.1⟩
        | Except.ok comps =>
          let parsed := comps.map parse_email
          let df2 := df1.setCol subjectName (parsed.map (fun x => x.1))
          let df3 := df2.setCol emailName (parsed.map (fun x => x.2))
          let df4 := df3.dropCol combinedName
          ⟨Except.ok df4, true, run.1⟩
  else ⟨Except.error (400, msgOnlyExcel), false, []⟩

/-- A parse oracle that always fails, for concrete runs. -/
def parseFailU : Unit → Except (List Char) Table :=
  fun _ => Except.error "bad bytes".toList

/-- A generation oracle returning a fixed completion, for concrete runs. -/
def genConstOk : List Char → List Char → Except (List Char) (List Char) :=
  fun _ _ => Except.ok "Subject: s\n\nBody:\nb".toList

/-- A one-row table whose single column is named `subject`, for the
column-collision run. -/
def tblSubjCol : Table := ⟨[subjectName], [["x".toList]]⟩

/-- A parse oracle returning `tblSubjCol`. -/
def parseSubjCol : Unit → Except (List Char) Table :=
  fun _ => Except.ok tblSubjCol

/-- A generation oracle returning the empty completion. -/
def genEmptyOk : List Char → List Char → Except (List Char) (List Char) :=
  fun _ _ => Except.ok []

/-- Declarative reading of a subject-pattern match at the start of `l`:
a case-insensitive `subject` literal, a whitespace run, a colon, a
whitespace run, then at least one character that is not a newline. -/
def SubjectHitAt (l : List Char) : Prop :=
  ∃ sj w1 w2 c r, l = sj ++ (w1 ++ ':' :: (w2 ++ c :: r)) ∧
    sj.map Char.toLower = subjectLit ∧ (∀ x ∈ w1, isSpace x = true) ∧
    (∀ x ∈ w2, isSpace x = true) ∧ c ≠ '\n'

/-! Claim C2: the signature-stripping step. -/

/-- Declarative reading of a signature break at index `i`: the
character there is a newline, immediately followed by one of the
keywords (case-insensitive) and then a whitespace character or a
comma. -/
def SigBreakAt (l : List Char) (i : Nat) : Prop :=
  ∃ kw m c r, kw ∈ sigKeywords ∧ l.drop i = '\n' :: (m ++ c :: r) ∧
    m.map Char.toLower = kw ∧ (isSpace c = true ∨ c = ',')

/-! Claim C6: the body-label step. -/

/-- Declarative reading of a body label at the very start of `l`: a
case-insensitive `body` literal, a whitespace run, a colon, then a
whitespace run. -/
def BodyLabelAt (l : List Char) : Prop :=
  ∃ bl w1 w2 r, l = bl ++ (w1 ++ ':' :: (w2 ++ r)) ∧ bl.map Char.toLower = bodyLit ∧
    (∀ x ∈ w1, isSpace x = true) ∧ (∀ x ∈ w2, isSpace x = true)

/-- A parse oracle returning a header-only table, for concrete runs. -/
def parseHdrOnly : Unit → Except (List Char) Table :=
  fun _ => Except.ok ⟨["name".toList], []⟩

/-- A parse oracle returning a fixed three-row table, for concrete
runs. -/
def parseTbl3 : Unit → Except (List Char) Table :=
  fun _ => Except.ok ⟨["name".toList], [["r1".toList], ["r2".toList], ["r3".toList]]⟩

/-- A generation oracle that fails exactly on the second row's profile,
for concrete runs. -/
def genFailR2 : List Char → List Char → Except (List Char) (List Char) :=
  fun prof _ =>
    if prof = "r2".toList then Except.error "boom".toList
    else Except.ok "Subject: s\n\nBody:\nb".toList

/-- A parse oracle returning a fixed two-row table with a single
`name` column, for concrete runs. -/
def parseTbl2 : Unit → Except (List Char) Table :=
  fun _ => Except.ok ⟨["name".toList], [["a".toList], ["b".toList]]⟩

/-! Generic lemmas about the scanning combinators. -/

theorem takeWhile_append_all {α : Type} (p : α → Bool) (a r : List α)
    (h : ∀ x ∈ a, p x = true) :
    (a ++ r).takeWhile p = a ++ r.takeWhile p := by
  induction a with
  | nil => simp
  | cons c cs ih =>
    simp only [List.cons_append, List.takeWhile_cons, h c (List.mem_cons_self c cs)]
    simp only [if_true]
    rw [ih (fun x hx => h x (List.mem_cons_of_mem c hx))]

theorem dropWhile_append_all {α : Type} (p : α → Bool) (a r : List α)
    (h : ∀ x ∈ a, p x = true) :
    (a ++ r).dropWhile p = r.dropWhile p := by
  induction a with
  | nil => simp
  | cons c cs ih =>
    simp only [List.cons_append, List.dropWhile_cons, h c (List.mem_cons_self c cs)]
    simp only [if_true]
    exact ih (fun x hx => h x (List.mem_cons_of_mem c hx))

theorem takeWhile_all {α : Type} (p : α → Bool) (a : List α)
    (h : ∀ x ∈ a, p x = true) : a.takeWhile p = a := by
  have h2 := takeWhile_append_all p a [] h
  simpa using h2

theorem dropWhile_all {α : Type} (p : α → Bool) (a : List α)
    (h : ∀ x ∈ a, p x = true) : a.dropWhile p = [] := by
  have h2 := dropWhile_append_all p a [] h
  simpa using h2

theorem dropWhile_cons_false {α : Type} (p : α → Bool) (c : α) (cs : List α)
    (h : p c = false) : (c :: cs).dropWhile p = c :: cs := by
  simp [List.dropWhile_cons, h]

theorem takeWhile_cons_false {α : Type} (p : α → Bool) (c : α) (cs : List α)
    (h : p c = false) : (c :: cs).takeWhile p = [] := by
  simp [List.takeWhile_cons, h]

theorem takeWhile_pred {α : Type} (p : α → Bool) (l : List α) (x : α)
    (h : x ∈ l.takeWhile p) : p x = true := by
  induction l with
  | nil => simp at h
  | cons c cs ih =>
    rw [List.takeWhile_cons] at h
    by_cases hc : p c = true
    · rw [if_pos hc] at h
      rcases List.mem_cons.mp h with h1 | h1
      · rw [h1]; exact hc
      · exact ih h1
    · rw [if_neg hc] at h
      simp at h

theorem mem_of_mem_dropWhile {α : Type} (p : α → Bool) (l : List α) (x : α)
    (h : x ∈ l.dropWhile p) : x ∈ l := by
  induction l with
  | nil => simp at h
  | cons c cs ih =>
    rw [List.dropWhile_cons] at h
    by_cases hc : p c = true
    · rw [if_pos hc] at h
      exact List.mem_cons_of_mem c (ih h)
    · rw [if_neg hc] at h
      exact h

theorem dropWhile_head?_false {α : Type} (p : α → Bool) (l : List α) (c : α)
    (h : (l.dropWhile p).head? = some c) : p c = false := by
  induction l with
  | nil => simp at h
  | cons x xs ih =>
    by_cases hx : p x = true
    · rw [List.dropWhile_cons, if_pos hx] at h
      exact ih h
    · rw [List.dropWhile_cons, if_neg hx] at h
      simp only [List.head?_cons, Option.some.injEq] at h
      rw [← h]
      exact Bool.eq_false_iff.mpr hx

theorem dropWhile_ne_nil_of_false {α : Type} (p : α → Bool) (l : List α) (x : α)
    (hx : x ∈ l) (hpx : p x = false) : l.dropWhile p ≠ [] := by
  induction l with
  | nil => simp at hx
  | cons c cs ih =>
    by_cases hc : p c = true
    · rw [List.dropWhile_cons, if_pos hc]
      apply ih
      rcases List.mem_cons.mp hx with h1 | h1
      · rw [← h1] at hc
        rw [hc] at hpx
        exact absurd hpx (by simp)
      · exact h1
    · rw [List.dropWhile_cons, if_neg hc]
      simp

theorem head?_append_left {α : Type} (a b : List α) (ha : a ≠ []) :
    (a ++ b).head? = a.head? := by
  cases a with
  | nil => exact absurd rfl ha
  | cons c cs => simp

theorem getLast?_append_right {α : Type} (t w : List α) (hw : w ≠ []) :
    (t ++ w).getLast? = w.getLast? := by
  rw [← List.head?_reverse, List.reverse_append,
    head?_append_left _ _ (by simpa using hw), List.head?_reverse]

/-! Lemmas about `strip`. -/

theorem strip_mem (l : List Char) (x : Char) (h : x ∈ strip l) : x ∈ l := by
  unfold strip at h
  rw [List.mem_reverse] at h
  have h1 := mem_of_mem_dropWhile _ _ _ h
  rw [List.mem_reverse] at h1
  exact mem_of_mem_dropWhile _ _ _ h1

theorem strip_head?_not_space (l : List Char) (c : Char)
    (h : (strip l).head? = some c) : isSpace c = false := by
  unfold strip at h
  rw [List.head?_reverse] at h
  have hne : ((l.dropWhile isSpace).reverse.dropWhile isSpace) ≠ [] := by
    intro hnil
    rw [hnil] at h
    simp at h
  have h2 : ((l.dropWhile isSpace).reverse).getLast? = some c := by
    conv_lhs =>
      rw [← List.takeWhile_append_dropWhile (p := isSpace) (l := (l.dropWhile isSpace).reverse)]
    rw [getLast?_append_right _ _ hne]
    exact h
  rw [List.getLast?_reverse] at h2
  exact dropWhile_head?_false _ _ _ h2

theorem strip_getLast?_not_space (l : List Char) (c : Char)
    (h : (strip l).getLast? = some c) : isSpace c = false := by
  unfold strip at h
  rw [List.getLast?_reverse] at h
  exact dropWhile_head?_false _ _ _ h

/-! Lemmas about the subject scanners. -/

theorem matchSubjectAt_nil : matchSubjectAt [] = none := by decide

theorem searchSubject_eq_of_matchAt (l g : List Char) (h : matchSubjectAt l = some g) :
    searchSubject l = some g := by
  cases l with
  | nil => rw [matchSubjectAt_nil] at h; cases h
  | cons c cs => rw [searchSubject, h]

theorem searchSubject_none_matchAt (l : List Char) (h : searchSubject l = none) :
    ∀ i, matchSubjectAt (l.drop i) = none := by
  induction l with
  | nil => intro i; simpa using matchSubjectAt_nil
  | cons c cs ih =>
    rw [searchSubject] at h
    intro i
    cases hm : matchSubjectAt (c :: cs) with
    | some g => rw [hm] at h; exact Option.noConfusion h
    | none =>
      rw [hm] at h
      cases i with
      | zero => simpa using hm
      | succ j =>
        rw [List.drop_succ_cons]
        exact ih h j

theorem searchSubject_some_exists (l g : List Char) (h : searchSubject l = some g) :
    ∃ i, matchSubjectAt (l.drop i) = some g := by
  induction l with
  | nil => rw [searchSubject] at h; cases h
  | cons c cs ih =>
    rw [searchSubject] at h
    cases hm : matchSubjectAt (c :: cs) with
    | some g0 =>
      rw [hm] at h
      have hg : g0 = g := Option.some.inj h
      exact ⟨0, by rw [List.drop_zero, hm, hg]⟩
    | none =>
      rw [hm] at h
      obtain ⟨i, hi⟩ := ih h
      exact ⟨i + 1, by rw [List.drop_succ_cons]; exact hi⟩

theorem matchSubjectAt_no_nl (l g : List Char) (h : matchSubjectAt l = some g) :
    '\n' ∉ g := by
  unfold matchSubjectAt at h
  split at h
  · split at h
    next c0 rest heq =>
      split at h
      next hc0 =>
        split at h
        next c cs hrest =>
          simp only [Option.some.injEq] at h
          rw [← h]
          intro hmem
          have h2 := takeWhile_pred notNl _ _ hmem
          simp [notNl] at h2
        next hrest =>
          split at h
          next c t hb =>
            simp only [Option.some.injEq] at h
            rw [← h]
            intro hmem
            have h1 : '\n' = c := List.mem_singleton.mp hmem
            have hc : ((rest.takeWhile isSpace).reverse.dropWhile isNl).head? = some c := by
              rw [hb]; rfl
            have h2 := dropWhile_head?_false _ _ _ hc
            rw [← h1] at h2
            simp [isNl] at h2
          next hb => cases h
      next hc0 => cases h
    next heq => cases h
  · cases h

theorem searchSubject_no_nl (l g : List Char) (h : searchSubject l = some g) :
    '\n' ∉ g := by
  obtain ⟨i, hi⟩ := searchSubject_some_exists l g h
  exact matchSubjectAt_no_nl _ _ hi

theorem all_of_dropWhile_nil {α : Type} (p : α → Bool) (l : List α)
    (h : l.dropWhile p = []) : ∀ x ∈ l, p x = true := by
  induction l with
  | nil => simp
  | cons c cs ih =>
    by_cases hc : p c = true
    · rw [List.dropWhile_cons, if_pos hc] at h
      intro x hx
      rcases List.mem_cons.mp hx with h1 | h1
      · rw [h1]; exact hc
      · exact ih h x h1
    · rw [List.dropWhile_cons, if_neg hc] at h
      cases h

theorem subjectHitAt_of_matchAt (l g : List Char) (h : matchSubjectAt l = some g) :
    SubjectHitAt l := by
  unfold matchSubjectAt at h
  split at h
  next hci =>
    split at h
    next c0 rest heq =>
      split at h
      next hc0 =>
        have hsj : (l.take 7).map Char.toLower = subjectLit := by
          unfold ciStarts at hci
          exact of_decide_eq_true hci
        have hd2 : l.drop 7 = (l.drop 7).takeWhile isSpace ++ ':' :: rest := by
          conv_lhs => rw [← List.takeWhile_append_dropWhile (p := isSpace) (l := l.drop 7)]
          rw [heq, hc0]
        split at h
        next c cs hrest =>
          have hr : rest = rest.takeWhile isSpace ++ (c :: cs) := by
            conv_lhs => rw [← List.takeWhile_append_dropWhile (p := isSpace) (l := rest)]
            rw [hrest]
          rw [hr] at hd2
          refine ⟨l.take 7, (l.drop 7).takeWhile isSpace, rest.takeWhile isSpace, c, cs,
            (List.take_append_drop 7 l).symm.trans (congrArg (fun z => l.take 7 ++ z) hd2),
            hsj, fun x hx => takeWhile_pred isSpace _ x hx,
            fun x hx => takeWhile_pred isSpace _ x hx, ?_⟩
          have hch : (rest.dropWhile isSpace).head? = some c := by rw [hrest]; rfl
          have hcf := dropWhile_head?_false _ _ _ hch
          intro hcn
          rw [hcn] at hcf
          exact absurd hcf (by decide)
        next hrest =>
          split at h
          next c t hb =>
            have hall := all_of_dropWhile_nil isSpace rest hrest
            have htw : rest.takeWhile isSpace = rest := takeWhile_all _ _ hall
            rw [htw] at hb
            have hQ : rest.reverse = (rest.reverse).takeWhile isNl ++ (c :: t) := by
              conv_lhs => rw [← List.takeWhile_append_dropWhile (p := isNl) (l := rest.reverse)]
              rw [hb]
            have hrest2 : rest = t.reverse ++ c :: ((rest.reverse).takeWhile isNl).reverse := by
              have h3 := congrArg List.reverse hQ
              rw [List.reverse_reverse, List.reverse_append, List.reverse_cons,
                List.append_assoc, List.singleton_append] at h3
              exact h3
            have hw2 : ∀ x ∈ t.reverse, isSpace x = true := by
              intro x hx
              apply hall x
              rw [List.mem_reverse] at hx
              have h4 : x ∈ rest.reverse := by
                rw [hQ]
                exact List.mem_append_right _ (List.mem_cons_of_mem c hx)
              rwa [List.mem_reverse] at h4
            have hcnl : c ≠ '\n' := by
              have hch : (rest.reverse.dropWhile isNl).head? = some c := by rw [hb]; rfl
              have h2 := dropWhile_head?_false _ _ _ hch
              intro hcn
              rw [hcn] at h2
              simp [isNl] at h2
            rw [hrest2] at hd2
            exact ⟨l.take 7, (l.drop 7).takeWhile isSpace, t.reverse, c,
              ((rest.reverse).takeWhile isNl).reverse,
              (List.take_append_drop 7 l).symm.trans (congrArg (fun z => l.take 7 ++ z) hd2),
              hsj, fun x hx => takeWhile_pred isSpace _ x hx, hw2, hcnl⟩
          next hb => cases h
      next hc0 => cases h
    next heq => cases h
  next hci => cases h

theorem matchSubjectAt_eval (l : List Char) (rest : List Char)
    (hci : ciStarts subjectLit l = true)
    (hdw : (l.drop 7).dropWhile isSpace = ':' :: rest) :
    matchSubjectAt l =
      (match rest.dropWhile isSpace with
       | c :: cs => some ((c :: cs).takeWhile notNl)
       | [] =>
         match (rest.takeWhile isSpace).reverse.dropWhile isNl with
         | c :: _ => some [c]
         | [] => none) := by
  unfold matchSubjectAt
  rw [if_pos hci, hdw]
  rfl

theorem matchSubjectAt_isSome_of_hit (l : List Char) (h : SubjectHitAt l) :
    matchSubjectAt l ≠ none := by
  obtain ⟨sj, w1, w2, c, r, hl, hsj, hw1, hw2, hcnl⟩ := h
  have hsjlen : sj.length = 7 := by
    have h2 := congrArg List.length hsj
    simpa [subjectLit] using h2
  have hci : ciStarts subjectLit l = true := by
    unfold ciStarts
    apply decide_eq_true
    rw [hl]
    rw [show subjectLit.length = 7 from rfl, List.take_left' hsjlen]
    exact hsj
  have hd7 : l.drop 7 = w1 ++ ':' :: (w2 ++ c :: r) := by
    rw [hl]
    exact List.drop_left' hsjlen
  have hdw : (l.drop 7).dropWhile isSpace = ':' :: (w2 ++ c :: r) := by
    rw [hd7, dropWhile_append_all isSpace w1 _ hw1]
    exact dropWhile_cons_false isSpace ':' _ (by decide)
  rw [matchSubjectAt_eval l (w2 ++ c :: r) hci hdw]
  cases hrest : (w2 ++ c :: r).dropWhile isSpace with
  | cons c2 cs2 => simp
  | nil =>
    have hall := all_of_dropWhile_nil isSpace _ hrest
    have htw : (w2 ++ c :: r).takeWhile isSpace = w2 ++ c :: r := takeWhile_all _ _ hall
    rw [htw]
    have hcnlb : isNl c = false := by simp [isNl, hcnl]
    have hmem : c ∈ (w2 ++ c :: r).reverse := by
      rw [List.mem_reverse]
      exact List.mem_append_right w2 (List.mem_cons_self c r)
    have hne := dropWhile_ne_nil_of_false isNl _ c hmem hcnlb
    cases hb : ((w2 ++ c :: r).reverse).dropWhile isNl with
    | nil => exact absurd hb hne
    | cons c3 t3 => simp

theorem searchSubject_none_of_noHit (l : List Char) (h : ∀ i, ¬ SubjectHitAt (l.drop i)) :
    searchSubject l = none := by
  cases hs : searchSubject l with
  | none => rfl
  | some g =>
    obtain ⟨i, hi⟩ := searchSubject_some_exists l g hs
    exact absurd (subjectHitAt_of_matchAt _ _ hi) (h i)

theorem noHit_of_searchSubject_none (l : List Char) (h : searchSubject l = none) :
    ∀ i, ¬ SubjectHitAt (l.drop i) := by
  intro i hhit
  exact matchSubjectAt_isSome_of_hit _ hhit (searchSubject_none_matchAt l h i)

/-! Lemmas about the subject-line removal. -/

theorem subjectRemMatchLen_nil : subjectRemMatchLen [] = none := by decide

theorem reSubAux_nil (f : Nat) : reSubAux f [] = [] := by cases f <;> rfl

theorem reSubAux_cons (f : Nat) (c : Char) (cs : List Char) :
    reSubAux (f + 1) (c :: cs) =
      (match subjectRemMatchLen (c :: cs) with
       | some n => reSubAux f (cs.drop (n - 1))
       | none => c :: reSubAux f cs) := rfl

theorem reSubAux_congr : ∀ (f f' : Nat) (l : List Char), l.length ≤ f → l.length ≤ f' →
    reSubAux f l = reSubAux f' l := by
  intro f
  induction f with
  | zero =>
    intro f' l hf hf'
    rw [List.eq_nil_of_length_eq_zero (Nat.le_zero.mp hf), reSubAux_nil, reSubAux_nil]
  | succ g ih =>
    intro f' l hf hf'
    cases l with
    | nil => rw [reSubAux_nil, reSubAux_nil]
    | cons c cs =>
      cases f' with
      | zero => simp at hf'
      | succ g' =>
        rw [reSubAux_cons, reSubAux_cons]
        cases hm : subjectRemMatchLen (c :: cs) with
        | some n =>
          show reSubAux g (cs.drop (n - 1)) = reSubAux g' (cs.drop (n - 1))
          apply ih
          · have := List.length_drop (n - 1) cs
            simp at hf
            omega
          · have := List.length_drop (n - 1) cs
            simp at hf'
            omega
        | none =>
          show c :: reSubAux g cs = c :: reSubAux g' cs
          have hlen := List.length_cons c cs
          exact congrArg (c :: ·) (ih g' cs (by simp at hf; omega) (by simp at hf'; omega))

theorem reSubSubject_cons_none (c : Char) (cs : List Char)
    (h : subjectRemMatchLen (c :: cs) = none) :
    reSubSubject (c :: cs) = c :: reSubSubject cs := by
  unfold reSubSubject
  rw [show (c :: cs).length = cs.length + 1 from rfl, reSubAux_cons, h]

theorem reSubSubject_drop (l : List Char) (n : Nat) (hn : 1 ≤ n)
    (h : subjectRemMatchLen l = some n) :
    reSubSubject l = reSubSubject (l.drop n) := by
  cases l with
  | nil => rw [subjectRemMatchLen_nil] at h; cases h
  | cons c cs =>
    unfold reSubSubject
    rw [show (c :: cs).length = cs.length + 1 from rfl, reSubAux_cons, h]
    obtain ⟨m, rfl⟩ : ∃ m, n = m + 1 := ⟨n - 1, by omega⟩
    rw [List.drop_succ_cons]
    show reSubAux cs.length (cs.drop m) = reSubAux (cs.drop m).length (cs.drop m)
    apply reSubAux_congr
    · have := List.length_drop m cs
      omega
    · exact Nat.le_refl _

theorem reSubSubject_no_match (l : List Char)
    (h : ∀ i, subjectRemMatchLen (l.drop i) = none) : reSubSubject l = l := by
  induction l with
  | nil => rfl
  | cons c cs ih =>
    rw [reSubSubject_cons_none c cs (by simpa using h 0)]
    rw [ih (fun i => by simpa using h (i + 1))]

/-- Claim C1, counterexample: on a completion with two subject lines,
`parse_email` removes both matched lines (the substitution replaces
every match), so the working body is `"c"`; the claim predicts that
only the first matched line is removed, leaving `"Subject: b\nc"`,
which the later steps do not change. -/
theorem claim1_cex :
    parse_email "Subject: a\nSubject: b\nc".toList = ("a".toList, "c".toList)
    ∧ strip (stripSignature (strip (stripBodyLabel (strip "Subject: b\nc".toList))))
        = "Subject: b\nc".toList
    ∧ "c".toList ≠ "Subject: b\nc".toList := by
  refine ⟨by decide, by decide, by decide⟩

/-- Every match of the removal pattern has positive length. -/
theorem subjectRemMatchLen_pos (l : List Char) (n : Nat)
    (h : subjectRemMatchLen l = some n) : 1 ≤ n := by
  unfold subjectRemMatchLen at h
  split at h
  · split at h
    next c0 rest heq =>
      split at h
      next hc0 =>
        split at h
        · cases h
        · split at h
          next c1 tail heq2 =>
            split at h
            · simp only [Option.some.injEq] at h
              omega
            · simp only [Option.some.injEq] at h
              omega
          next heq2 =>
            simp only [Option.some.injEq] at h
            omega
      next hc0 => cases h
    next heq => cases h
  · cases h

/-- `re.search` is first-match-wins: if the pattern matches at
position `i` with group `g` and at no earlier position, the search
returns `g`. -/
theorem searchSubject_first (l : List Char) (i : Nat) (g : List Char)
    (hg : matchSubjectAt (l.drop i) = some g)
    (hmin : ∀ j, j < i → matchSubjectAt (l.drop j) = none) :
    searchSubject l = some g := by
  induction l generalizing i with
  | nil =>
    rw [List.drop_nil, matchSubjectAt_nil] at hg
    cases hg
  | cons c cs ih =>
    cases i with
    | zero =>
      rw [List.drop_zero] at hg
      exact searchSubject_eq_of_matchAt _ _ hg
    | succ k =>
      have h0 : matchSubjectAt (c :: cs) = none := by simpa using hmin 0 (Nat.succ_pos k)
      rw [searchSubject, h0]
      exact ih k (by simpa using hg)
        (fun j hj => by simpa using hmin (j + 1) (Nat.succ_lt_succ hj))

/-- Claim C10, counterexample: a carriage return — a line-break
character — survives inside the extracted subject, because the dot of
the search pattern matches every character except the newline. -/
theorem claim10_cex :
    parse_email "Subject: a\rb".toList = ("a\rb".toList, [])
    ∧ '\r' ∈ (parse_email "Subject: a\rb".toList).1 := by
  refine ⟨by decide, by decide⟩

/-- Evaluation of `parse_email` when the subject search succeeds. -/
theorem parse_email_eq_some (text g : List Char) (h : searchSubject text = some g) :
    parse_email text =
      (strip g, strip (stripSignature (strip (stripBodyLabel (strip (reSubSubject text)))))) := by
  unfold parse_email
  rw [h]

/-- Evaluation of `parse_email` when the subject search fails. -/
theorem parse_email_eq_none (text : List Char) (h : searchSubject text = none) :
    parse_email text = ([], strip (stripSignature (strip (stripBodyLabel text)))) := by
  unfold parse_email
  rw [h]

/-- Claim C1 (amended): for every completion in which the subject
pattern matches somewhere, the subject is the trimmed captured group
of the first match (first-match-wins; minimality of the match position
is stated with the declarative pattern reading), and the working body
is the completion after the subject-line removal, to which the later
steps then apply; the removal itself skips the whole matched segment
at every match of the removal pattern, keeps every non-matching
character, removes nothing from match-free text, and on the two
subject-line example both matched lines are removed. -/
theorem claim1_thm :
    (∀ text i g, matchSubjectAt (text.drop i) = some g →
      (∀ j, j < i → ¬ SubjectHitAt (text.drop j)) →
      SubjectHitAt (text.drop i)
      ∧ searchSubject text = some g
      ∧ parse_email text
        = (strip g, strip (stripSignature (strip (stripBodyLabel
            (strip (reSubSubject text)))))))
    ∧ (∀ l n, subjectRemMatchLen l = some n → reSubSubject l = reSubSubject (l.drop n))
    ∧ (∀ c cs, subjectRemMatchLen (c :: cs) = none →
        reSubSubject (c :: cs) = c :: reSubSubject cs)
    ∧ (∀ l, (∀ i, subjectRemMatchLen (l.drop i) = none) → reSubSubject l = l)
    ∧ parse_email "Subject: a\nSubject: b\nc".toList = ("a".toList, "c".toList) := by
  refine ⟨?_, ?_, reSubSubject_cons_none, reSubSubject_no_match, by decide⟩
  · intro text i g hg hmin
    have hminm : ∀ j, j < i → matchSubjectAt (text.drop j) = none := by
      intro j hj
      cases hm : matchSubjectAt (text.drop j) with
      | none => rfl
      | some g2 => exact absurd (subjectHitAt_of_matchAt _ _ hm) (hmin j hj)
    have hsearch := searchSubject_first text i g hg hminm
    exact ⟨subjectHitAt_of_matchAt _ _ hg, hsearch, parse_email_eq_some text g hsearch⟩
  · intro l n h
    exact reSubSubject_drop l n (subjectRemMatchLen_pos l n h) h

/-- Claim C1 witness: the first-match part of the theorem applied at a
concrete completion whose lone subject line follows other text. -/
theorem claim1_wit :
    SubjectHitAt ("x\nSubject:  hi".toList.drop 2)
    ∧ searchSubject "x\nSubject:  hi".toList = some "hi".toList
    ∧ parse_email "x\nSubject:  hi".toList
      = (strip "hi".toList, strip (stripSignature (strip (stripBodyLabel
          (strip (reSubSubject "x\nSubject:  hi".toList)))))) :=
  claim1_thm.1 "x\nSubject:  hi".toList 2 "hi".toList (by decide)
    (fun j hj hhit => matchSubjectAt_isSome_of_hit _ hhit (by
      rcases (show j = 0 ∨ j = 1 from by omega) with h | h <;> (rw [h]; decide)))

section

set_option maxHeartbeats 1600000

/-- Claim C10 (amended): `parse_email` is total, its subject never
contains a newline (though other line-break characters such as a
carriage return may remain), and subject and body have no leading or
trailing whitespace: each is empty or starts and ends with a
non-whitespace character. -/
theorem claim10_thm (text : List Char) :
    '\n' ∉ (parse_email text).1
    ∧ (∀ c, (parse_email text).1.head? = some c → isSpace c = false)
    ∧ (∀ c, (parse_email text).1.getLast? = some c → isSpace c = false)
    ∧ (∀ c, (parse_email text).2.head? = some c → isSpace c = false)
    ∧ (∀ c, (parse_email text).2.getLast? = some c → isSpace c = false) := by
  cases hs : searchSubject text with
  | some g =>
    rw [parse_email_eq_some text g hs]
    refine ⟨?_, ?_, ?_, ?_, ?_⟩
    · intro hmem
      exact searchSubject_no_nl _ _ hs (strip_mem _ _ hmem)
    · exact fun c h => strip_head?_not_space _ _ h
    · exact fun c h => strip_getLast?_not_space _ _ h
    · exact fun c h => strip_head?_not_space _ _ h
    · exact fun c h => strip_getLast?_not_space _ _ h
  | none =>
    rw [parse_email_eq_none text hs]
    refine ⟨?_, ?_, ?_, ?_, ?_⟩
    · simp
    · intro c h
      simp at h
    · intro c h
      simp at h
    · exact fun c h => strip_head?_not_space _ _ h
    · exact fun c h => strip_getLast?_not_space _ _ h

end

/-- Claim C10 witness: the amended theorem applied at a concrete input. -/
theorem claim10_wit :
    '\n' ∉ (parse_email "Subject: Hi\n\nBody:\nYo".toList).1
    ∧ isSpace 'H' = false ∧ isSpace 'i' = false
    ∧ isSpace 'Y' = false ∧ isSpace 'o' = false :=
  ⟨(claim10_thm "Subject: Hi\n\nBody:\nYo".toList).1,
   (claim10_thm "Subject: Hi\n\nBody:\nYo".toList).2.1 'H' (by decide),
   (claim10_thm "Subject: Hi\n\nBody:\nYo".toList).2.2.1 'i' (by decide),
   (claim10_thm "Subject: Hi\n\nBody:\nYo".toList).2.2.2.1 'Y' (by decide),
   (claim10_thm "Subject: Hi\n\nBody:\nYo".toList).2.2.2.2 'o' (by decide)⟩

/-- Claim C7, counterexample: on a no-subject completion with leading
whitespace, the code applies the body-label pattern (anchored at the
very start) to the untrimmed completion, so the label is not stripped;
the claim's working body — the trimmed completion — would have its
label stripped by the later step. -/
theorem claim7_cex :
    parse_email "  Body: hi".toList = ([], "Body: hi".toList)
    ∧ strip (stripSignature (strip (stripBodyLabel (strip "  Body: hi".toList)))) = "hi".toList
    ∧ ("Body: hi".toList : List Char) ≠ "hi".toList := by
  refine ⟨by decide, by decide, by decide⟩

theorem claim7_thm (text : List Char) (h : ∀ i, ¬ SubjectHitAt (text.drop i)) :
    searchSubject text = none
    ∧ parse_email text = ([], strip (stripSignature (strip (stripBodyLabel text))))
    ∧ parse_email "Just a note with no headers.".toList
        = ([], "Just a note with no headers.".toList) := by
  have hnone := searchSubject_none_of_noHit text h
  refine ⟨hnone, ?_, by decide⟩
  unfold parse_email
  rw [hnone]

/-- Claim C7 witness: the amended theorem applied at a concrete input. -/
theorem claim7_wit :
    searchSubject "Just a note with no headers.".toList = none
    ∧ parse_email "Just a note with no headers.".toList
        = ([], strip (stripSignature (strip
            (stripBodyLabel "Just a note with no headers.".toList)))) :=
  ⟨(claim7_thm "Just a note with no headers.".toList
      (noHit_of_searchSubject_none _ (by decide))).1,
   (claim7_thm "Just a note with no headers.".toList
      (noHit_of_searchSubject_none _ (by decide))).2.1⟩

theorem sigBreakAt_iff (l : List Char) (i : Nat) :
    SigBreakAt l i ↔ sigMatchAt (l.drop i) = true := by
  constructor
  · rintro ⟨kw, m, c, r, hkw, hdrop, hlow, hc⟩
    rw [hdrop]
    have hlen : m.length = kw.length := by rw [← hlow]; simp
    show (decide (('\n' : Char) = '\n') &&
      sigKeywords.any (fun kw2 => ciStarts kw2 (m ++ c :: r)
        && sigAfterOk ((m ++ c :: r).drop kw2.length))) = true
    rw [Bool.and_eq_true]
    refine ⟨by decide, ?_⟩
    rw [List.any_eq_true]
    refine ⟨kw, hkw, ?_⟩
    rw [Bool.and_eq_true]
    constructor
    · unfold ciStarts
      apply decide_eq_true
      rw [← hlen, List.take_left]
      exact hlow
    · rw [← hlen, List.drop_left]
      show (isSpace c || decide (c = ',')) = true
      rcases hc with hc | hc
      · simp [hc]
      · simp [hc]
  · intro h
    cases hd : l.drop i with
    | nil => rw [hd] at h; exact absurd h (by decide)
    | cons c0 rest =>
      rw [hd] at h
      have h2 : (decide (c0 = '\n') &&
        sigKeywords.any (fun kw => ciStarts kw rest && sigAfterOk (rest.drop kw.length))) = true := h
      rw [Bool.and_eq_true] at h2
      obtain ⟨hc0, hany⟩ := h2
      have hc0e : c0 = '\n' := of_decide_eq_true hc0
      rw [List.any_eq_true] at hany
      obtain ⟨kw, hkw, hkwt⟩ := hany
      rw [Bool.and_eq_true] at hkwt
      obtain ⟨hcis, hafter⟩ := hkwt
      unfold ciStarts at hcis
      have htake := of_decide_eq_true hcis
      cases hda : rest.drop kw.length with
      | nil => rw [hda] at hafter; exact absurd hafter (by decide)
      | cons c r =>
        rw [hda] at hafter
        have hafter2 : (isSpace c || decide (c = ',')) = true := hafter
        refine ⟨kw, rest.take kw.length, c, r, hkw, ?_, htake, ?_⟩
        · rw [hd, hc0e]
          congr 1
          conv_lhs => rw [← List.take_append_drop kw.length rest]
          rw [hda]
        · rcases Bool.or_eq_true_iff.mp hafter2 with hl | hr
          · exact Or.inl hl
          · exact Or.inr (of_decide_eq_true hr)

theorem stripSignature_cons (c : Char) (cs : List Char) :
    stripSignature (c :: cs) = if sigMatchAt (c :: cs) then [] else c :: stripSignature cs := rfl

theorem stripSignature_eq_take (l : List Char) (i : Nat)
    (hi : sigMatchAt (l.drop i) = true)
    (hmin : ∀ j, j < i → sigMatchAt (l.drop j) = false) :
    stripSignature l = l.take i := by
  induction l generalizing i with
  | nil =>
    rw [List.drop_nil] at hi
    exact absurd hi (by decide)
  | cons c cs ih =>
    cases i with
    | zero =>
      rw [List.drop_zero] at hi
      rw [stripSignature_cons, if_pos hi]
      rfl
    | succ k =>
      have h0 : sigMatchAt (c :: cs) = false := by
        have h1 := hmin 0 (Nat.succ_pos k)
        simpa using h1
      rw [stripSignature_cons, if_neg (by simp [h0]), List.take_succ_cons]
      congr 1
      exact ih k (by simpa using hi)
        (fun j hj => by simpa using hmin (j + 1) (Nat.succ_lt_succ hj))

theorem stripSignature_eq_self (l : List Char)
    (h : ∀ j, sigMatchAt (l.drop j) = false) : stripSignature l = l := by
  induction l with
  | nil => rfl
  | cons c cs ih =>
    have h0 : sigMatchAt (c :: cs) = false := by simpa using h 0
    rw [stripSignature_cons, if_neg (by simp [h0])]
    rw [ih (fun j => by simpa using h (j + 1))]

/-- Claim C2: the signature step truncates the working body at the
first line break immediately followed by a keyword line (and nowhere
when no such break exists), and the documented example holds through
`parse_email`. -/
theorem claim2_thm :
    (∀ l i, SigBreakAt l i → (∀ j, j < i → ¬ SigBreakAt l j) → stripSignature l = l.take i)
    ∧ (∀ l, (∀ i, ¬ SigBreakAt l i) → stripSignature l = l)
    ∧ parse_email "Hi there\n\nBest,\nJohn".toList = ([], "Hi there".toList) := by
  refine ⟨?_, ?_, by decide⟩
  · intro l i hb hmin
    refine stripSignature_eq_take l i ((sigBreakAt_iff l i).mp hb) ?_
    intro j hj
    cases hcase : sigMatchAt (l.drop j) with
    | false => rfl
    | true => exact absurd ((sigBreakAt_iff l j).mpr hcase) (hmin j hj)
  · intro l h
    refine stripSignature_eq_self l ?_
    intro j
    cases hcase : sigMatchAt (l.drop j) with
    | false => rfl
    | true => exact absurd ((sigBreakAt_iff l j).mpr hcase) (h j)

/-- Claim C2 witness: the theorem applied at a concrete input. -/
theorem claim2_wit : stripSignature "Hi\nbest x".toList = "Hi".toList := by
  have h := claim2_thm.1 "Hi\nbest x".toList 2
    ((sigBreakAt_iff "Hi\nbest x".toList 2).mpr (by decide))
    (fun j hj hb => by
      have hm := (sigBreakAt_iff "Hi\nbest x".toList j).mp hb
      have hcases : j = 0 ∨ j = 1 := by omega
      rcases hcases with h1 | h1 <;> (rw [h1] at hm; revert hm; decide))
  rw [h]
  decide

theorem stripBodyLabel_eval (l rest : List Char)
    (hci : ciStarts bodyLit l = true)
    (hdw : (l.drop 4).dropWhile isSpace = ':' :: rest) :
    stripBodyLabel l = rest.dropWhile isSpace := by
  unfold stripBodyLabel
  rw [if_pos hci, hdw]
  rfl

/-- Claim C6: the leading body label (case-insensitive, optional
whitespace around the colon) is stripped when present at the very
start of the working body, and only then; the documented example holds
through `parse_email`. -/
theorem claim6_thm :
    (∀ bl w1 w2 r, bl.map Char.toLower = bodyLit → (∀ x ∈ w1, isSpace x = true) →
      (∀ x ∈ w2, isSpace x = true) → (∀ c, r.head? = some c → isSpace c = false) →
      stripBodyLabel (bl ++ (w1 ++ ':' :: (w2 ++ r))) = r)
    ∧ (∀ l, ¬ BodyLabelAt l → stripBodyLabel l = l)
    ∧ parse_email "Subject: Quick question\n\nBody:\nHi there".toList
        = ("Quick question".toList, "Hi there".toList) := by
  refine ⟨?_, ?_, by decide⟩
  · intro bl w1 w2 r hlow hw1 hw2 hr
    have hlen : bl.length = 4 := by
      have h2 := congrArg List.length hlow
      simpa [bodyLit] using h2
    have hci : ciStarts bodyLit (bl ++ (w1 ++ ':' :: (w2 ++ r))) = true := by
      unfold ciStarts
      apply decide_eq_true
      rw [show bodyLit.length = 4 from rfl, List.take_left' hlen]
      exact hlow
    have hdw : ((bl ++ (w1 ++ ':' :: (w2 ++ r))).drop 4).dropWhile isSpace
        = ':' :: (w2 ++ r) := by
      rw [List.drop_left' hlen, dropWhile_append_all isSpace w1 _ hw1]
      exact dropWhile_cons_false isSpace ':' _ (by decide)
    rw [stripBodyLabel_eval _ _ hci hdw]
    rw [dropWhile_append_all isSpace w2 _ hw2]
    cases hr2 : r with
    | nil => rfl
    | cons c cs =>
      refine dropWhile_cons_false isSpace c cs ?_
      apply hr c
      rw [hr2]
      rfl
  · intro l hno
    unfold stripBodyLabel
    by_cases hci : ciStarts bodyLit l = true
    · rw [if_pos hci]
      cases hd : (l.drop 4).dropWhile isSpace with
      | nil => rfl
      | cons c0 rest =>
        by_cases hc0 : c0 = ':'
        · exfalso
          apply hno
          have hbl : (l.take 4).map Char.toLower = bodyLit := by
            unfold ciStarts at hci
            exact of_decide_eq_true hci
          have hd2 : l.drop 4 = (l.drop 4).takeWhile isSpace ++ ':' :: rest := by
            conv_lhs => rw [← List.takeWhile_append_dropWhile (p := isSpace) (l := l.drop 4)]
            rw [hd, hc0]
          have hrs : rest = rest.takeWhile isSpace ++ rest.dropWhile isSpace :=
            (List.takeWhile_append_dropWhile isSpace rest).symm
          rw [hrs] at hd2
          exact ⟨l.take 4, (l.drop 4).takeWhile isSpace, rest.takeWhile isSpace,
            rest.dropWhile isSpace,
            (List.take_append_drop 4 l).symm.trans (congrArg (fun z => l.take 4 ++ z) hd2),
            hbl, fun x hx => takeWhile_pred isSpace _ x hx,
            fun x hx => takeWhile_pred isSpace _ x hx⟩
        · show (if c0 = ':' then rest.dropWhile isSpace else l) = l
          rw [if_neg hc0]
    · rw [if_neg hci]

/-- Claim C6 witness: the theorem applied at a concrete input. -/
theorem claim6_wit :
    stripBodyLabel ("Body".toList ++ ([] ++ ':' :: ([' '] ++ "x".toList))) = "x".toList :=
  claim6_thm.1 "Body".toList [] [' '] "x".toList (by decide) (by decide) (by decide)
    (fun c h => by
      have h3 : ('x' : Char) = c := Option.some.inj h
      rw [← h3]
      decide)

/-! Endpoint claims. -/

/-- Claim C8: with a filename ending in neither recognized extension,
the endpoint answers 400 with the unsupported-format detail, without
attempting spreadsheet parsing and without any generation call,
whatever the oracles would do. -/
theorem claim8_thm {β : Type} (parseXlsx : β → Except (List Char) Table)
    (gen : List Char → List Char → Except (List Char) (List Char))
    (filename : List Char) (contents : β) (prompt : List Char)
    (h : (xlsxExt.isSuffixOf filename || xlsExt.isSuffixOf filename) = false) :
    generate_emails parseXlsx gen filename contents prompt
      = ⟨Except.error (400, msgOnlyExcel), false, []⟩ := by
  unfold generate_emails
  rw [h]
  rfl

/-- Claim C8 witness: the theorem applied at a concrete upload. -/
theorem claim8_wit :
    generate_emails parseFailU genConstOk "report.csv".toList () "p".toList
      = ⟨Except.error (400, msgOnlyExcel), false, []⟩ :=
  claim8_thm parseFailU genConstOk "report.csv".toList () "p".toList (by decide)

/-- Claim C9: an upload that parses to a table with zero data rows is
answered 400 with the empty-file detail, and no generation call is
made. -/
theorem claim9_thm {β : Type} (parseXlsx : β → Except (List Char) Table)
    (gen : List Char → List Char → Except (List Char) (List Char))
    (filename : List Char) (contents : β) (prompt : List Char) (t : Table)
    (hext : (xlsxExt.isSuffixOf filename || xlsExt.isSuffixOf filename) = true)
    (hp : parseXlsx contents = Except.ok t) (hr : t.rows = []) :
    generate_emails parseXlsx gen filename contents prompt
      = ⟨Except.error (400, msgEmpty), true, []⟩ := by
  have he : t.isEmpty = true := by
    unfold Table.isEmpty
    rw [hr]
    simp
  unfold generate_emails
  simp only [hext, hp, he, if_true]

/-- Claim C9 witness: the theorem applied at a concrete upload. -/
theorem claim9_wit :
    generate_emails parseHdrOnly genConstOk "a.xlsx".toList () "p".toList
      = ⟨Except.error (400, msgEmpty), true, []⟩ :=
  claim9_thm parseHdrOnly genConstOk "a.xlsx".toList () "p".toList ⟨["name".toList], []⟩
    (by decide) rfl rfl

/-- Claim C3, counterexample: an upload with an accepted extension
whose bytes cannot be parsed is answered by the generic catch-all with
HTTP 500 (server-error detail), not with a 400 response as the claim
states. -/
theorem claim3_cex :
    (generate_emails parseFailU genConstOk "a.xlsx".toList () "p".toList).result
      = Except.error (500, serverErrPre ++ "bad bytes".toList)
    ∧ (500 : Nat) ≠ 400 := by
  refine ⟨by decide, by decide⟩

/-- Claim C3 (amended): when the bytes of an accepted upload cannot be
parsed, the raised exception is caught by the generic handler and the
request fails with HTTP 500 carrying the server-error prefix and the
parser's message; no generation call is made. -/
theorem claim3_thm {β : Type} (parseXlsx : β → Except (List Char) Table)
    (gen : List Char → List Char → Except (List Char) (List Char))
    (filename : List Char) (contents : β) (prompt : List Char) (m : List Char)
    (hext : (xlsxExt.isSuffixOf filename || xlsExt.isSuffixOf filename) = true)
    (hp : parseXlsx contents = Except.error m) :
    generate_emails parseXlsx gen filename contents prompt
      = ⟨Except.error (500, serverErrPre ++ m), true, []⟩ := by
  unfold generate_emails
  simp only [hext, hp, if_true]

/-- Claim C3 witness: the amended theorem applied at a concrete upload. -/
theorem claim3_wit :
    generate_emails parseFailU genConstOk "a.xlsx".toList () "p".toList
      = ⟨Except.error (500, serverErrPre ++ "bad bytes".toList), true, []⟩ :=
  claim3_thm parseFailU genConstOk "a.xlsx".toList () "p".toList "bad bytes".toList
    (by decide) rfl

/-- Sequential generation over a profile list whose first failure is at
the head of `p :: post` after the successful prefix `pre`: exactly the
profiles of `pre ++ [p]` are attempted, in order, and the first error
is returned. -/
theorem runGen_fail (gen : List Char → List Char → Except (List Char) (List Char))
    (prompt : List Char) (pre : List (List Char)) (p : List Char)
    (post : List (List Char)) (e : List Char)
    (hpre : ∀ q ∈ pre, ∃ c, gen q prompt = Except.ok c)
    (hfail : gen p prompt = Except.error e) :
    runGen gen prompt (pre ++ p :: post) = (pre ++ [p], Except.error e) := by
  induction pre with
  | nil =>
    rw [List.nil_append, List.nil_append]
    simp [runGen, hfail]
  | cons q qs ih =>
    obtain ⟨c, hc⟩ := hpre q (List.mem_cons_self q qs)
    have ih2 := ih (fun x hx => hpre x (List.mem_cons_of_mem q hx))
    rw [List.cons_append]
    simp [runGen, hc, ih2]

/-- Claim C4: when the generation call fails on some row after a
successful prefix, the whole request fails with HTTP 500 carrying the
underlying message behind the fixed prefix, the failing row is
attempted exactly once, no later row is ever attempted, and no output
table is produced. -/
theorem claim4_thm {β : Type} (parseXlsx : β → Except (List Char) Table)
    (gen : List Char → List Char → Except (List Char) (List Char))
    (filename : List Char) (contents : β) (prompt : List Char) (t : Table)
    (pre : List (List Char)) (p : List Char) (post : List (List Char)) (e : List Char)
    (hext : (xlsxExt.isSuffixOf filename || xlsExt.isSuffixOf filename) = true)
    (hp : parseXlsx contents = Except.ok t)
    (hne : t.isEmpty = false)
    (hprof : t.rows.map combineRow = pre ++ p :: post)
    (hpre : ∀ q ∈ pre, ∃ c, gen q prompt = Except.ok c)
    (hfail : gen p prompt = Except.error e) :
    generate_emails parseXlsx gen filename contents prompt
      = ⟨Except.error (500, openaiErrPre ++ e), true, pre ++ [p]⟩ := by
  have hrun := runGen_fail gen prompt pre p post e hpre hfail
  unfold generate_emails
  simp only [hext, hp, hne, hprof, hrun, if_true]
  rfl

/-- Claim C4 witness: the theorem applied at a three-row upload whose
second row fails. -/
theorem claim4_wit :
    generate_emails parseTbl3 genFailR2 "a.xlsx".toList () "p".toList
      = ⟨Except.error (500, openaiErrPre ++ "boom".toList), true,
         ["r1".toList] ++ ["r2".toList]⟩ :=
  claim4_thm parseTbl3 genFailR2 "a.xlsx".toList () "p".toList
    ⟨["name".toList], [["r1".toList], ["r2".toList], ["r3".toList]]⟩
    ["r1".toList] "r2".toList ["r3".toList] "boom".toList
    (by decide) rfl rfl (by decide)
    (fun q hq => by
      have hq2 : q = "r1".toList := by simpa using hq
      rw [hq2]
      exact ⟨"Subject: s\n\nBody:\nb".toList, rfl⟩)
    rfl

/-! Claim C5: table operation lemmas. -/

theorem setCol_mem (t : Table) (name : List Char) (vals : List (List Char))
    (h : name ∈ t.cols) :
    t.setCol name vals
      = ⟨t.cols, List.zipWith (fun row v => setCell t.cols name v row) t.rows vals⟩ := by
  unfold Table.setCol
  rw [if_pos h]

theorem setCol_not_mem (t : Table) (name : List Char) (vals : List (List Char))
    (h : name ∉ t.cols) :
    t.setCol name vals
      = ⟨t.cols ++ [name], List.zipWith (fun row v => row ++ [v]) t.rows vals⟩ := by
  unfold Table.setCol
  rw [if_neg h]

theorem setCell_cons (c : List Char) (cols : List (List Char)) (name v x : List Char)
    (xs : List (List Char)) :
    setCell (c :: cols) name v (x :: xs)
      = (if c = name then v else x) :: setCell cols name v xs := rfl

theorem dropRow_cons (c : List Char) (cols : List (List Char)) (name x : List Char)
    (xs : List (List Char)) :
    dropRow (c :: cols) name (x :: xs)
      = if c = name then dropRow cols name xs else x :: dropRow cols name xs := by
  unfold dropRow
  by_cases hc : c = name
  · rw [if_pos hc]
    have hdec : (decide ((c, x).1 ≠ name)) = false := by simp [hc]
    simp [List.zip_cons_cons, List.filter_cons, hdec]
    rw [if_pos hc]
  · rw [if_neg hc]
    have hdec : (decide ((c, x).1 ≠ name)) = true := by simp [hc]
    simp [List.zip_cons_cons, List.filter_cons, hdec]
    rw [if_neg hc]
    rfl

theorem dropRow_keep_all (cols : List (List Char)) (name : List Char)
    (r : List (List Char)) (hname : name ∉ cols) (hlen : r.length ≤ cols.length) :
    dropRow cols name r = r := by
  unfold dropRow
  have hfil : (cols.zip r).filter (fun p => decide (p.1 ≠ name)) = cols.zip r := by
    rw [List.filter_eq_self]
    intro a ha
    apply decide_eq_true
    intro hcontra
    have hmem := List.of_mem_zip ha
    exact hname (hcontra ▸ hmem.1)
  rw [hfil]
  exact List.map_snd_zip cols r hlen

theorem dropRow_setCell (cols : List (List Char)) (name v : List Char) :
    ∀ r, dropRow cols name (setCell cols name v r) = dropRow cols name r := by
  induction cols with
  | nil => intro r; rfl
  | cons c cols ih =>
    intro r
    cases r with
    | nil => rfl
    | cons x xs =>
      rw [setCell_cons]
      by_cases hc : c = name
      · rw [if_pos hc, dropRow_cons, dropRow_cons, if_pos hc, if_pos hc]
        exact ih xs
      · rw [if_neg hc, dropRow_cons, dropRow_cons, if_neg hc, if_neg hc]
        rw [ih xs]

theorem dropRow_append (cols cols2 : List (List Char)) (name : List Char)
    (r r2 : List (List Char)) (hlen : cols.length = r.length) :
    dropRow (cols ++ cols2) name (r ++ r2) = dropRow cols name r ++ dropRow cols2 name r2 := by
  unfold dropRow
  rw [List.zip_append hlen, List.filter_append, List.map_append]

theorem setCell_length (cols : List (List Char)) (name v : List Char)
    (r : List (List Char)) :
    (setCell cols name v r).length = min cols.length r.length := by
  unfold setCell
  simp [List.length_zip]

theorem zipWith_zipWith_map_right {α β γ δ ε : Type}
    (g : γ → δ → ε) (f : α → β → γ) (h : β → δ) :
    ∀ (as : List α) (bs : List β),
    List.zipWith g (List.zipWith f as bs) (bs.map h)
      = List.zipWith (fun a b => g (f a b) (h b)) as bs := by
  intro as
  induction as with
  | nil => intro bs; simp
  | cons a as ih =>
    intro bs
    cases bs with
    | nil => simp
    | cons b bs => simp [ih]

theorem zipWith_congr_mem {α β γ : Type} (f g : α → β → γ) :
    ∀ (as : List α) (bs : List β),
    (∀ a ∈ as, ∀ b ∈ bs, f a b = g a b) →
    List.zipWith f as bs = List.zipWith g as bs := by
  intro as
  induction as with
  | nil => intro bs h; simp
  | cons a as ih =>
    intro bs h
    cases bs with
    | nil => simp
    | cons b bs =>
      simp only [List.zipWith_cons_cons]
      rw [h a (List.mem_cons_self a as) b (List.mem_cons_self b bs),
        ih bs (fun x hx y hy =>
          h x (List.mem_cons_of_mem a hx) y (List.mem_cons_of_mem b hy))]

/-- Sequential generation over profiles that all succeed: every profile
is attempted in order and the trimmed completions are collected. -/
theorem runGen_ok (gen : List Char → List Char → Except (List Char) (List Char))
    (prompt : List Char) (qs cs : List (List Char))
    (h : List.Forall₂ (fun q c => gen q prompt = Except.ok c) qs cs) :
    runGen gen prompt qs = (qs, Except.ok (cs.map strip)) := by
  induction h with
  | nil => rfl
  | cons hqc htail ih => simp [runGen, hqc, ih]

/-- Evaluation of the endpoint on the all-rows-succeed path. -/
theorem generate_emails_ok {β : Type} (parseXlsx : β → Except (List Char) Table)
    (gen : List Char → List Char → Except (List Char) (List Char))
    (filename : List Char) (contents : β) (prompt : List Char)
    (t : Table) (comps : List (List Char))
    (hext : (xlsxExt.isSuffixOf filename || xlsExt.isSuffixOf filename) = true)
    (hp : parseXlsx contents = Except.ok t) (hne : t.isEmpty = false)
    (hrun : runGen gen prompt (t.rows.map combineRow)
      = (t.rows.map combineRow, Except.ok comps)) :
    generate_emails parseXlsx gen filename contents prompt
      = ⟨Except.ok ((((t.setCol combinedName (t.rows.map combineRow)).setCol subjectName
            ((comps.map parse_email).map (fun x => x.1))).setCol emailName
            ((comps.map parse_email).map (fun x => x.2))).dropCol combinedName),
         true, t.rows.map combineRow⟩ := by
  unfold generate_emails
  simp only [hext, hp, hne, hrun, if_true]
  rfl

theorem setCol_mk_mem (C : List (List Char)) (R : List (List (List Char)))
    (name : List Char) (vals : List (List Char)) (h : name ∈ C) :
    (Table.mk C R).setCol name vals
      = ⟨C, List.zipWith (fun row v => setCell C name v row) R vals⟩ := by
  unfold Table.setCol
  rw [if_pos (show name ∈ (Table.mk C R).cols from h)]

theorem setCol_mk_not_mem (C : List (List Char)) (R : List (List (List Char)))
    (name : List Char) (vals : List (List Char)) (h : name ∉ C) :
    (Table.mk C R).setCol name vals
      = ⟨C ++ [name], List.zipWith (fun row v => row ++ [v]) R vals⟩ := by
  unfold Table.setCol
  rw [if_neg (show name ∉ (Table.mk C R).cols from h)]

/-- Claim C5, counterexample: when the input table already has a column
named `subject`, the assignment overwrites it in place instead of
adding a new column, so the output has two columns, not the three that
"the input's columns plus two new columns" would give. -/
theorem claim5_cex :
    (generate_emails parseSubjCol genEmptyOk "a.xls".toList () []).result
      = Except.ok ⟨[subjectName, emailName], [[[], []]]⟩
    ∧ ([subjectName, emailName] : List (List Char))
        ≠ [subjectName, subjectName, emailName] := by
  refine ⟨by decide, by decide⟩

/-- Claim C5 (amended): for every valid non-empty table whose columns
do not already contain `subject` or `email` and whose generation calls
all succeed, the output table keeps the input's columns minus the
transient combined-profile column, appends the two new columns
`subject` and `email` holding the parsed pair of each row's trimmed
completion, preserves row order, and has exactly as many rows as the
input. -/
theorem claim5_thm {β : Type} (parseXlsx : β → Except (List Char) Table)
    (gen : List Char → List Char → Except (List Char) (List Char))
    (filename : List Char) (contents : β) (prompt : List Char)
    (t : Table) (cs : List (List Char))
    (hext : (xlsxExt.isSuffixOf filename || xlsExt.isSuffixOf filename) = true)
    (hp : parseXlsx contents = Except.ok t)
    (hne : t.isEmpty = false)
    (hlen : ∀ r ∈ t.rows, r.length = t.cols.length)
    (hsub : subjectName ∉ t.cols) (hem : emailName ∉ t.cols)
    (hgen : List.Forall₂ (fun q c => gen q prompt = Except.ok c)
      (t.rows.map combineRow) cs) :
    generate_emails parseXlsx gen filename contents prompt
      = ⟨Except.ok ⟨(t.dropCol combinedName).cols ++ [subjectName, emailName],
           List.zipWith (fun r pr => r ++ [pr.1, pr.2]) (t.dropCol combinedName).rows
             ((cs.map strip).map parse_email)⟩,
         true, t.rows.map combineRow⟩
    ∧ (List.zipWith (fun r pr => r ++ [pr.1, pr.2]) (t.dropCol combinedName).rows
         ((cs.map strip).map parse_email)).length = t.rows.length := by
  have hlencs : t.rows.length = cs.length := by
    have h2 := List.Forall₂.length_eq hgen
    simpa using h2
  have hrun := runGen_ok gen prompt _ cs hgen
  have heval := generate_emails_ok parseXlsx gen filename contents prompt t (cs.map strip)
    hext hp hne hrun
  have hdropmk : ∀ (C : List (List Char)) (R : List (List (List Char))),
      (Table.mk C R).dropCol combinedName
        = ⟨C.filter (fun c => decide (c ≠ combinedName)), R.map (dropRow C combinedName)⟩ :=
    fun C R => rfl
  have hone : ∀ v : List Char, dropRow [combinedName] combinedName [v] = [] := by
    intro v
    rw [dropRow_cons, if_pos rfl]
    rfl
  have htwo : ∀ v : List Char, dropRow [subjectName] combinedName [v] = [v] := by
    intro v
    rw [dropRow_cons, if_neg (by decide)]
    rfl
  have hthree : ∀ v : List Char, dropRow [emailName] combinedName [v] = [v] := by
    intro v
    rw [dropRow_cons, if_neg (by decide)]
    rfl
  have hSV : ((cs.map strip).map parse_email).map (fun x => x.1)
      = cs.map (fun c => (parse_email (strip c)).1) := by
    simp [List.map_map, Function.comp]
  have hEV : ((cs.map strip).map parse_email).map (fun x => x.2)
      = cs.map (fun c => (parse_email (strip c)).2) := by
    simp [List.map_map, Function.comp]
  have hPE : (cs.map strip).map parse_email = cs.map (fun c => parse_email (strip c)) := by
    simp [List.map_map, Function.comp]
  have htarget : List.zipWith (fun r pr => r ++ [pr.1, pr.2]) (t.dropCol combinedName).rows
        ((cs.map strip).map parse_email)
      = List.zipWith (fun r c => dropRow t.cols combinedName r
          ++ [(parse_email (strip c)).1, (parse_email (strip c)).2]) t.rows cs := by
    have hdc : (t.dropCol combinedName).rows = t.rows.map (dropRow t.cols combinedName) := rfl
    rw [hdc, hPE, List.zipWith_map]
  refine ⟨?_, ?_⟩
  case refine_2 =>
    rw [htarget, List.length_zipWith]
    omega
  rw [heval]
  by_cases hcomb : combinedName ∈ t.cols
  · -- the input already has a combined-profile column: overwritten in place
    rw [setCol_mem t combinedName _ hcomb]
    rw [setCol_mk_not_mem _ _ subjectName _ hsub]
    have hemail1 : emailName ∉ t.cols ++ [subjectName] := by
      intro hmem
      rcases List.mem_append.mp hmem with h1 | h1
      · exact hem h1
      · rw [List.mem_singleton] at h1
        exact absurd h1 (by decide)
    rw [setCol_mk_not_mem _ _ emailName _ hemail1]
    rw [hdropmk]
    have hcols : ((t.cols ++ [subjectName]) ++ [emailName]).filter
          (fun c => decide (c ≠ combinedName))
        = t.cols.filter (fun c => decide (c ≠ combinedName)) ++ [subjectName, emailName] := by
      simp only [List.filter_append]
      rw [show (List.filter (fun c => decide (c ≠ combinedName)) [subjectName])
            = [subjectName] from by decide,
        show (List.filter (fun c => decide (c ≠ combinedName)) [emailName])
            = [emailName] from by decide]
      simp
    have hR1 : List.zipWith (fun row v => setCell t.cols combinedName v row)
          t.rows (t.rows.map combineRow)
        = t.rows.map (fun r => setCell t.cols combinedName (combineRow r) r) := by
      rw [List.zipWith_map_right, List.zipWith_same]
    have hrows : (List.zipWith (fun row v => row ++ [v])
          (List.zipWith (fun row v => row ++ [v])
            (List.zipWith (fun row v => setCell t.cols combinedName v row)
              t.rows (t.rows.map combineRow))
            (((cs.map strip).map parse_email).map (fun x => x.1)))
          (((cs.map strip).map parse_email).map (fun x => x.2))).map
            (dropRow ((t.cols ++ [subjectName]) ++ [emailName]) combinedName)
        = List.zipWith (fun r c => dropRow t.cols combinedName r
            ++ [(parse_email (strip c)).1, (parse_email (strip c)).2]) t.rows cs := by
      rw [hR1, hSV, hEV, List.zipWith_map, zipWith_zipWith_map_right, List.map_zipWith]
      apply zipWith_congr_mem
      intro r hr c hc
      have hlr : r.length = t.cols.length := hlen r hr
      have hsc : (setCell t.cols combinedName (combineRow r) r).length = t.cols.length := by
        rw [setCell_length, hlr]
        simp
      rw [show (setCell t.cols combinedName (combineRow r) r ++ [(parse_email (strip c)).1])
            ++ [(parse_email (strip c)).2]
          = setCell t.cols combinedName (combineRow r) r
            ++ ([(parse_email (strip c)).1] ++ [(parse_email (strip c)).2]) from by
          simp [List.append_assoc]]
      rw [show (t.cols ++ [subjectName]) ++ [emailName]
          = t.cols ++ ([subjectName] ++ [emailName]) from by simp [List.append_assoc]]
      rw [dropRow_append _ _ _ _ _ (by rw [hsc])]
      rw [dropRow_append _ _ _ _ _ (by simp)]
      rw [dropRow_setCell, htwo, hthree]
      simp
    rw [htarget, hcols, hrows]
    rfl
  · -- no combined-profile column in the input: appended then dropped
    rw [setCol_not_mem t combinedName _ hcomb]
    have hsub1 : subjectName ∉ t.cols ++ [combinedName] := by
      intro hmem
      rcases List.mem_append.mp hmem with h1 | h1
      · exact hsub h1
      · rw [List.mem_singleton] at h1
        exact absurd h1 (by decide)
    rw [setCol_mk_not_mem _ _ subjectName _ hsub1]
    have hemail1 : emailName ∉ (t.cols ++ [combinedName]) ++ [subjectName] := by
      intro hmem
      rcases List.mem_append.mp hmem with h1 | h1
      · rcases List.mem_append.mp h1 with h2 | h2
        · exact hem h2
        · rw [List.mem_singleton] at h2
          exact absurd h2 (by decide)
      · rw [List.mem_singleton] at h1
        exact absurd h1 (by decide)
    rw [setCol_mk_not_mem _ _ emailName _ hemail1]
    rw [hdropmk]
    have hcols : (((t.cols ++ [combinedName]) ++ [subjectName]) ++ [emailName]).filter
          (fun c => decide (c ≠ combinedName))
        = t.cols.filter (fun c => decide (c ≠ combinedName)) ++ [subjectName, emailName] := by
      simp only [List.filter_append]
      rw [show (List.filter (fun c => decide (c ≠ combinedName)) [combinedName])
            = [] from by decide,
        show (List.filter (fun c => decide (c ≠ combinedName)) [subjectName])
            = [subjectName] from by decide,
        show (List.filter (fun c => decide (c ≠ combinedName)) [emailName])
            = [emailName] from by decide]
      simp
    have hR1 : List.zipWith (fun row v => row ++ [v]) t.rows (t.rows.map combineRow)
        = t.rows.map (fun r => r ++ [combineRow r]) := by
      rw [List.zipWith_map_right, List.zipWith_same]
    have hrows : (List.zipWith (fun row v => row ++ [v])
          (List.zipWith (fun row v => row ++ [v])
            (List.zipWith (fun row v => row ++ [v]) t.rows (t.rows.map combineRow))
            (((cs.map strip).map parse_email).map (fun x => x.1)))
          (((cs.map strip).map parse_email).map (fun x => x.2))).map
            (dropRow (((t.cols ++ [combinedName]) ++ [subjectName]) ++ [emailName])
              combinedName)
        = List.zipWith (fun r c => dropRow t.cols combinedName r
            ++ [(parse_email (strip c)).1, (parse_email (strip c)).2]) t.rows cs := by
      rw [hR1, hSV, hEV, List.zipWith_map, zipWith_zipWith_map_right, List.map_zipWith]
      apply zipWith_congr_mem
      intro r hr c hc
      have hlr : r.length = t.cols.length := hlen r hr
      rw [show ((r ++ [combineRow r]) ++ [(parse_email (strip c)).1])
            ++ [(parse_email (strip c)).2]
          = r ++ ([combineRow r] ++ ([(parse_email (strip c)).1]
            ++ [(parse_email (strip c)).2])) from by simp [List.append_assoc]]
      rw [show ((t.cols ++ [combinedName]) ++ [subjectName]) ++ [emailName]
          = t.cols ++ ([combinedName] ++ ([subjectName] ++ [emailName])) from by
          simp [List.append_assoc]]
      rw [dropRow_append _ _ _ _ _ (by rw [hlr])]
      rw [dropRow_append _ _ _ _ _ (by simp)]
      rw [dropRow_append _ _ _ _ _ (by simp)]
      rw [hone, htwo, hthree]
      simp
    rw [htarget, hcols, hrows]
    rfl

/-- Claim C5 witness: the amended theorem applied at a concrete
two-row upload whose generation calls all succeed. -/
theorem claim5_wit :
    generate_emails parseTbl2 genConstOk "a.xlsx".toList () "p".toList
      = ⟨Except.ok ⟨((⟨["name".toList], [["a".toList], ["b".toList]]⟩ : Table).dropCol
            combinedName).cols ++ [subjectName, emailName],
           List.zipWith (fun r pr => r ++ [pr.1, pr.2])
             ((⟨["name".toList], [["a".toList], ["b".toList]]⟩ : Table).dropCol
               combinedName).rows
             (((["Subject: s\n\nBody:\nb".toList,
                 "Subject: s\n\nBody:\nb".toList] : List (List Char)).map strip).map
               parse_email)⟩,
         true,
         (⟨["name".toList], [["a".toList], ["b".toList]]⟩ : Table).rows.map combineRow⟩ :=
  (claim5_thm parseTbl2 genConstOk "a.xlsx".toList () "p".toList
    ⟨["name".toList], [["a".toList], ["b".toList]]⟩
    ["Subject: s\n\nBody:\nb".toList, "Subject: s\n\nBody:\nb".toList]
    (by decide) rfl rfl (by decide) (by decide) (by decide)
    (List.Forall₂.cons rfl (List.Forall₂.cons rfl List.Forall₂.nil))).1

end ColdEmail
